import Mathlib

set_option autoImplicit false

/-! Shallow embedding of the ts-tree-lib repository (src/TreeNode.ts and the
Tree class) and verification of its specification claims.

Modelling conventions:
* A JS `TreeNode` object is embedded as an inductive value carrying a `ref`
  field: a natural number standing for the object's reference (JS heap
  address).  JS reference equality `===` between nodes is embedded as
  equality of `ref` fields (`refEq`); within a well-formed object graph all
  references are distinct, so this is exact.
* `model` is the opaque payload `M`; `index` is `Option Int` (a JS `number`
  field that may be `undefined`).
* In-place mutation of a node that lives inside a tree is embedded by
  rebuilding the object graph reachable from the tree root with the object
  of the mutated reference replaced (`updateByRef`).
* The dual-mode `predicateOrProperty` arguments: the source first resolves a
  property-name/value pair into a predicate closure (TreeNode.ts lines
  98-107) and then runs identical code, so the embedding takes the resolved
  predicate `p : TreeNode M → Bool` directly; this covers both call forms.
* Fallible code (`parse` reaching `children.forEach` on `undefined`, a
  TypeError in JS) is embedded with `Except Unit`.
-/

namespace TsTree

/-- Embedding of the `TreeNode<NodeModelType>` class: reference, model
payload, `index` field (possibly `undefined`), and the ordered list of owned
children.  The `strategy` field of the class is never read by the operations
verified here (Tree carries its own strategy), so it is not embedded. -/
inductive TreeNode (M : Type) : Type where
  | mk (ref : Nat) (model : M) (index : Option Int) (children : List (TreeNode M))

/-- Reference (object identity) of a node. -/
def TreeNode.ref {M : Type} : TreeNode M → Nat
  | .mk r _ _ _ => r

/-- Model payload of a node. -/
def TreeNode.model {M : Type} : TreeNode M → M
  | .mk _ m _ _ => m

/-- Index field of a node. -/
def TreeNode.index {M : Type} : TreeNode M → Option Int
  | .mk _ _ i _ => i

/-- Children list of a node. -/
def TreeNode.children {M : Type} : TreeNode M → List (TreeNode M)
  | .mk _ _ _ c => c

/-- Embedding of JS reference equality `===` between two node objects. -/
def TreeNode.refEq {M : Type} (a b : TreeNode M) : Bool :=
  a.ref == b.ref

/-- Source: `addChild(child)` — `if (child) this.children.push(child)`. -/
def TreeNode.addChild {M : Type} (t : TreeNode M) (child : Option (TreeNode M)) :
    TreeNode M :=
  match child with
  | none => t
  | some c => .mk t.ref t.model t.index (t.children ++ [c])

/-- Source: `removeChild(child)` — if child is non-null, replace `children`
by `children.filter((c) => c !== child)`. -/
def TreeNode.removeChild {M : Type} (t : TreeNode M) (child : Option (TreeNode M)) :
    TreeNode M :=
  match child with
  | none => t
  | some c => .mk t.ref t.model t.index (t.children.filter (fun x => !(x.refEq c)))

/-- Loop body of `findChild` over a children list: each child is tested
first; only if it fails is its subtree searched recursively (the JS guard
`if (child.children)` is always true since `children` is an array). -/
def findChildGo {M : Type} (p : TreeNode M → Bool) :
    List (TreeNode M) → Option (TreeNode M)
  | [] => none
  | child :: rest =>
    if p child then some child
    else
      match findChildGo p child.children with
      | some g => some g
      | none => findChildGo p rest
termination_by l => sizeOf l
decreasing_by
  · have h1 : sizeOf child.children < sizeOf child := by
      cases child with
      | mk r m ix cs => simp [TreeNode.children] <;> omega
    simp <;> omega
  · simp <;> omega

/-- Source: `findChild(predicateOrProperty, value?)` with the predicate
already resolved; iterates over `this.children`. -/
def TreeNode.findChild {M : Type} (t : TreeNode M) (p : TreeNode M → Bool) :
    Option (TreeNode M) :=
  findChildGo p t.children

mutual
/-- Source: the `traverse` helper of `getPath` at one node: push the node,
succeed if it is the target (`===`), otherwise try the children in order and
pop (backtrack) on failure.  Returns the path when found, `none` otherwise
(in JS, `path.length > 0 ? path : null`). -/
def getPathGo {M : Type} (target : TreeNode M) (t : TreeNode M) :
    Option (List (TreeNode M)) :=
  if t.refEq target then some [t]
  else
    match getPathForest target t.children with
    | some p => some (t :: p)
    | none => none
termination_by sizeOf t
decreasing_by
  have h1 : sizeOf t.children < sizeOf t := by
    cases t with
    | mk r m ix cs => simp [TreeNode.children] <;> omega
  omega

/-- The `for (const child of currentNode.children)` loop of `getPath`'s
traversal: first child whose subtree contains the target wins. -/
def getPathForest {M : Type} (target : TreeNode M) :
    List (TreeNode M) → Option (List (TreeNode M))
  | [] => none
  | c :: rest =>
    match getPathGo target c with
    | some p => some p
    | none => getPathForest target rest
termination_by l => sizeOf l
decreasing_by
  · simp <;> omega
  · simp <;> omega
end

/-- Source: `getPath(targetNode)` — run the backtracking traversal from
`this`. -/
def TreeNode.getPath {M : Type} (t : TreeNode M) (target : TreeNode M) :
    Option (List (TreeNode M)) :=
  getPathGo target t

/-- Source: `getReversePath(targetNode)` — `getPath` then reverse, `null`
propagated. -/
def TreeNode.getReversePath {M : Type} (t : TreeNode M) (target : TreeNode M) :
    Option (List (TreeNode M)) :=
  (t.getPath target).map List.reverse

/-- Loop of `getParent` over a candidate-parent list: return the first node
of the list whose `children` contains (`includes`, i.e. `===`) the child,
else recurse into that node's subtree, else move to the next node. -/
def getParentGo {M : Type} (child : TreeNode M) :
    List (TreeNode M) → Option (TreeNode M)
  | [] => none
  | node :: rest =>
    if node.children.any (fun x => x.refEq child) then some node
    else
      match getParentGo child node.children with
      | some p => some p
      | none => getParentGo child rest
termination_by l => sizeOf l
decreasing_by
  · have key : ∀ (x : TreeNode M) (n : Nat), sizeOf x.children < 1 + sizeOf x + n := by
      intro x n
      cases x with
      | mk r m ix cs =>
        simp only [TreeNode.children, TreeNode.mk.sizeOf_spec]
        omega
    exact key _ _
  · simp <;> omega

/-- Source: `getParent(child)` — `null` child gives `null`; otherwise search
`this.children` (note: `this` itself is never a candidate owner). -/
def TreeNode.getParent {M : Type} (t : TreeNode M) (child : Option (TreeNode M)) :
    Option (TreeNode M) :=
  match child with
  | none => none
  | some c => getParentGo c t.children

/-- Source: `insertChild(child, predicateOrProperty, value?)` — no-op on a
null child (the `!this.children` guard is dead: the field is initialised to
`[]`); `findIndex` (`-1` embedded as `none`) then `splice(i, 0, child)`
(embedded as `take i ++ child :: drop i`) or `push`. -/
def TreeNode.insertChild {M : Type} (t : TreeNode M) (child : Option (TreeNode M))
    (p : TreeNode M → Bool) : TreeNode M :=
  match child with
  | none => t
  | some c =>
    match t.children.findIdx? p with
    | some i => .mk t.ref t.model t.index (t.children.take i ++ c :: t.children.drop i)
    | none => .mk t.ref t.model t.index (t.children ++ [c])

/-- Contiguous-sublist test on lists, used to embed JS `String.includes`. -/
def containsList {α : Type} [BEq α] : List α → List α → Bool
  | l, pat =>
    if pat.isPrefixOf l then true
    else
      match l with
      | [] => false
      | _ :: rest => containsList rest pat

/-- Embedding of `order.includes(pat)` on strings. -/
def strIncludes (s pat : String) : Bool :=
  containsList s.toList pat.toList

/-- Recursive `traverse` of `depthFirstSearch`: push the node before the
children when `order.includes("pre-order")`, and after them when
`order.includes("in-order")` or, failing that, `order.includes("post-order")`
(the source's if/else-if chain). -/
def depthFirstTraverse {M : Type} (order : String) (t : TreeNode M) :
    List (TreeNode M) :=
  (if strIncludes order "pre-order" then [t] else []) ++
    (t.children.attach.flatMap fun c => depthFirstTraverse order c.1) ++
    (if strIncludes order "in-order" then [t]
     else if strIncludes order "post-order" then [t] else [])
termination_by sizeOf t
decreasing_by
  have h1 : sizeOf c.1 < sizeOf t.children := List.sizeOf_lt_of_mem c.2
  have h2 : sizeOf t.children < sizeOf t := by
    cases t with
    | mk r m ix cs => simp [TreeNode.children] <;> omega
  omega

/-- Source: `depthFirstSearch(node, order)` (the method ignores `this`; its
TS `order` parameter defaults to `"in-order"`, written explicitly at every
call site of this embedding).  After the traversal, the three exact
`reverse-*` order values reverse the result end-to-end. -/
def TreeNode.depthFirstSearch {M : Type} (node : TreeNode M) (order : String) :
    List (TreeNode M) :=
  let result := depthFirstTraverse order node
  if order == "reverse-pre-order" || order == "reverse-post-order" ||
      order == "reverse-in-order" then
    result.reverse
  else
    result

/-- The six order values accepted by the TS union type of
`depthFirstSearch`. -/
def validOrders : List String :=
  ["pre-order", "post-order", "in-order",
   "reverse-pre-order", "reverse-post-order", "reverse-in-order"]

mutual
/-- Total number of nodes of the subtree rooted at a node (the node itself
included). -/
def TreeNode.size {M : Type} : TreeNode M → Nat
  | .mk _ _ _ cs => 1 + forestSize cs
termination_by t => sizeOf t
decreasing_by
  simp <;> omega

/-- Total number of nodes of a forest. -/
def forestSize {M : Type} : List (TreeNode M) → Nat
  | [] => 0
  | x :: xs => TreeNode.size x + forestSize xs
termination_by l => sizeOf l
decreasing_by
  · simp <;> omega
  · simp <;> omega
end

/-- The FIFO-queue loop of `breadthFirstOrder`: dequeue a node, emit it,
enqueue its children. -/
def breadthFirstGo {M : Type} : List (TreeNode M) → List (TreeNode M)
  | [] => []
  | n :: queue => n :: breadthFirstGo (queue ++ n.children)
termination_by l => forestSize l
decreasing_by
  have happ : ∀ a b : List (TreeNode M), forestSize (a ++ b) = forestSize a + forestSize b := by
    intro a b
    induction a with
    | nil => simp [forestSize]
    | cons x xs ih =>
      simp only [List.cons_append, forestSize, ih]
      omega
  have key : ∀ (x : TreeNode M) (q : List (TreeNode M)),
      forestSize (q ++ x.children) < forestSize (x :: q) := by
    intro x q
    rw [happ]
    have hx : forestSize x.children < TreeNode.size x := by
      cases x with
      | mk r m ix cs =>
        simp only [TreeNode.size, TreeNode.children]
        omega
    simp only [forestSize]
    omega
  exact key _ _

/-- Source: `breadthFirstOrder(node)` — level-order traversal seeded with
the given node (the method ignores `this`). -/
def TreeNode.breadthFirstOrder {M : Type} (node : TreeNode M) : List (TreeNode M) :=
  breadthFirstGo [node]

/-- Source: `defaultTraversalStrategy(node)` —
`node.depthFirstSearch(node)` with the TS default order `"in-order"`. -/
def defaultTraversalStrategy {M : Type} (node : TreeNode M) : List (TreeNode M) :=
  node.depthFirstSearch "in-order"

/-- All nodes of the subtree rooted at a node, listed in pre-order.  This is
the reference enumeration of the object graph, used to state claims. -/
def TreeNode.nodes {M : Type} (t : TreeNode M) : List (TreeNode M) :=
  t :: (t.children.attach.flatMap fun c => TreeNode.nodes c.1)
termination_by sizeOf t
decreasing_by
  have h1 : sizeOf c.1 < sizeOf t.children := List.sizeOf_lt_of_mem c.2
  have h2 : sizeOf t.children < sizeOf t := by
    cases t with
    | mk r m ix cs => simp [TreeNode.children] <;> omega
  omega

/-- All nodes of a forest. -/
def forestNodes {M : Type} (l : List (TreeNode M)) : List (TreeNode M) :=
  l.flatMap TreeNode.nodes

/-- A node `q` owns reference `ρ` when its children list contains a node
with that reference. -/
def ownsRef {M : Type} (q : TreeNode M) (ρ : Nat) : Prop :=
  ∃ x ∈ q.children, x.ref = ρ

/-- Embedding of an in-place JS mutation: apply `f` to the object whose
reference is `r`, rebuilding the object graph reachable from `t`.  Within a
well-formed graph at most one object carries `r`. -/
def TreeNode.updateByRef {M : Type} (t : TreeNode M) (r : Nat)
    (f : TreeNode M → TreeNode M) : TreeNode M :=
  if t.ref == r then f t
  else .mk t.ref t.model t.index (t.children.attach.map fun c => c.1.updateByRef r f)
termination_by sizeOf t
decreasing_by
  have h1 : sizeOf c.1 < sizeOf t.children := List.sizeOf_lt_of_mem c.2
  have h2 : sizeOf t.children < sizeOf t := by
    cases t with
    | mk r' m ix cs => simp [TreeNode.children] <;> omega
  omega

/-- Nested plain-data input of `parse`:
`{ model, index?, children?: [...] }`.  A missing entry is `none`. -/
inductive RawData (M : Type) : Type where
  | mk (model : M) (index : Option Int) (children : Option (List (RawData M)))

/-- Embedding of `parseChildren`'s `forEach` (building fresh child objects):
takes the position `i` within the parent's list (the synthesized index is
`i + 1`) and the next fresh reference `k`; returns the built forest and the
next fresh reference.  Each child's own raw `index` entry is discarded, as
in the source.  The source's recursion guard `if (childData.children)` skips
only an absent entry (an empty array is truthy in JS). -/
def parseForest {M : Type} : List (RawData M) → Nat → Nat → List (TreeNode M) × Nat
  | [], _, k => ([], k)
  | .mk m _ none :: rest, i, k =>
    let node : TreeNode M := .mk k m (some ((i : Int) + 1)) []
    let after := parseForest rest (i + 1) (k + 1)
    (node :: after.1, after.2)
  | .mk m _ (some l) :: rest, i, k =>
    let sub := parseForest l 0 (k + 1)
    let node : TreeNode M := .mk k m (some ((i : Int) + 1)) sub.1
    let after := parseForest rest (i + 1) sub.2
    (node :: after.1, after.2)
termination_by l _ _ => sizeOf l
decreasing_by
  · simp <;> omega
  · simp <;> omega
  · simp <;> omega

/-- Embedding of the `Tree<NodeModelType>` class: optional root plus the
pluggable traversal strategy (default `defaultTraversalStrategy`). -/
structure Tree (M : Type) where
  root : Option (TreeNode M)
  strategy : TreeNode M → List (TreeNode M)

/-- Source: `parseChildren(parentNode, children)` — appends the parsed
children to the parent.  When the `children` argument is `undefined` the JS
body `children.forEach(...)` throws a TypeError, embedded as `Except.error`.
Fresh references for the built nodes start at `parent.ref + 1`. -/
def Tree.parseChildren {M : Type} (parent : TreeNode M)
    (children : Option (List (RawData M))) : Except Unit (TreeNode M) :=
  match children with
  | none => .error ()
  | some l =>
    .ok (.mk parent.ref parent.model parent.index
      (parent.children ++ (parseForest l 0 (parent.ref + 1)).1))

/-- Source: `parse(object)` — falsy input gives a `null` root; otherwise a
root node is built from `object.model` and `object.index` (reference 0) and
`parseChildren` is called unconditionally on `object.children`. -/
def Tree.parse {M : Type} (object : Option (RawData M)) :
    Except Unit (Option (TreeNode M)) :=
  match object with
  | none => .ok none
  | some (.mk m ix cs) =>
    match Tree.parseChildren (TreeNode.mk 0 m ix []) cs with
    | .error e => .error e
    | .ok r => .ok (some r)

/-- Source: `all()` — `this.root ? this.strategy(this.root) : null`. -/
def Tree.all {M : Type} (t : Tree M) : Option (List (TreeNode M)) :=
  t.root.map t.strategy

/-- Source: the `removeFromArray` helper of `Tree.remove` — `indexOf` plus
`splice(index, 1)`: remove the first `===` occurrence only. -/
def removeFirstByRef {M : Type} : List (TreeNode M) → TreeNode M → List (TreeNode M)
  | [], _ => []
  | x :: xs, n => if x.refEq n then xs else x :: removeFirstByRef xs n

/-- Source: the `removeFromTree` helper of `Tree.remove` — remove the node
from the current node's children, then recurse into the (already updated)
children. -/
def removeFromTree {M : Type} (current : TreeNode M) (node : TreeNode M) : TreeNode M :=
  let newChildren := removeFirstByRef current.children node
  .mk current.ref current.model current.index
    (newChildren.attach.map fun c => removeFromTree c.1 node)
termination_by sizeOf current
decreasing_by
  have hmem : ∀ (l : List (TreeNode M)) (x : TreeNode M),
      x ∈ removeFirstByRef l node → x ∈ l := by
    intro l
    induction l with
    | nil => intro x hx; simp [removeFirstByRef] at hx
    | cons y ys ih =>
      intro x hx
      simp only [removeFirstByRef] at hx
      by_cases hy : y.refEq node = true
      · simp [hy] at hx
        exact List.mem_cons_of_mem y hx
      · simp [hy] at hx
        rcases hx with h | h
        · exact h ▸ List.mem_cons_self y ys
        · exact List.mem_cons_of_mem y (ih x h)
  have h0 : c.1 ∈ current.children := hmem current.children c.1 c.2
  have h1 : sizeOf c.1 < sizeOf current.children := List.sizeOf_lt_of_mem h0
  have h2 : sizeOf current.children < sizeOf current := by
    cases current with
    | mk r m ix cs => simp [TreeNode.children] <;> omega
  omega

/-- Source: `remove(node)` — empty tree is a no-op; a root hit (`===`)
clears the whole tree; otherwise `removeFromTree` runs from the root. -/
def Tree.remove {M : Type} (t : Tree M) (node : TreeNode M) : Tree M :=
  match t.root with
  | none => t
  | some r =>
    if r.refEq node then { t with root := none }
    else { t with root := some (removeFromTree r node) }

/-- Source: `find(predicateOrProperty, value?)` — delegate to
`root.findChild`, `null` on an empty tree. -/
def Tree.find {M : Type} (t : Tree M) (p : TreeNode M → Bool) :
    Option (TreeNode M) :=
  match t.root with
  | none => none
  | some r => r.findChild p

/-- Source: `move(node, newParent)` — the body is
`const currentParent = node.getParent(this.root);`
`currentParent?.removeChild(node); newParent.addChild(node);`
(note the receiver/argument positions of the `getParent` call, embedded
exactly as written).  The two heap mutations are projected both onto the
tree (first component) and onto the object graph reachable from the
`newParent` argument (second component). -/
def Tree.move {M : Type} (t : Tree M) (node newParent : TreeNode M) :
    Tree M × TreeNode M :=
  let currentParent := node.getParent t.root
  let detach : TreeNode M → TreeNode M := fun x =>
    match currentParent with
    | some p => x.updateByRef p.ref (fun n => n.removeChild (some node))
    | none => x
  let reattach : TreeNode M → TreeNode M := fun x =>
    x.updateByRef newParent.ref (fun n => n.addChild (some node))
  ({ t with root := (t.root.map detach).map reattach }, reattach (detach newParent))

/-- Source: `getPath(node)` — delegate to the root, `null` on an empty
tree. -/
def Tree.getPath {M : Type} (t : Tree M) (node : TreeNode M) :
    Option (List (TreeNode M)) :=
  match t.root with
  | none => none
  | some r => r.getPath node

/-- Source: `getReversePath(node)` — delegate to the root, `null` on an
empty tree. -/
def Tree.getReversePath {M : Type} (t : Tree M) (node : TreeNode M) :
    Option (List (TreeNode M)) :=
  match t.root with
  | none => none
  | some r => r.getReversePath node

/-- Source: `walk(callback)` —
`this.root?.depthFirstSearch(this.root).forEach(callback)`.  The callback is
pure side effect, so the embedding returns the sequence of nodes the
callback is invoked on (default order `"in-order"`; empty on an empty
tree). -/
def Tree.walk {M : Type} (t : Tree M) : List (TreeNode M) :=
  match t.root with
  | none => []
  | some r => r.depthFirstSearch "in-order"

/-- Source: `Tree.insertChild(child, predicateOrProperty, value?)` — flatten
the tree with `this.strategy`, and `addChild` (append) the child to the
first flattened node satisfying the predicate; nothing happens without a
match. -/
def Tree.insertChild {M : Type} (t : Tree M) (child : TreeNode M)
    (p : TreeNode M → Bool) : Tree M :=
  let nodes :=
    match t.root with
    | some r => t.strategy r
    | none => []
  match nodes.find? p with
  | some n =>
    { t with root := t.root.map (fun r => r.updateByRef n.ref
        (fun x => x.addChild (some child))) }
  | none => t

/-- The traversals provided by the library: the six depth-first orders and
the breadth-first order. -/
inductive ProvidedStrategy : Type where
  | depthFirst (order : String)
  | breadthFirst

/-- Interpret a provided traversal as a strategy function. -/
def applyStrategy {M : Type} : ProvidedStrategy → TreeNode M → List (TreeNode M)
  | .depthFirst ord, n => n.depthFirstSearch ord
  | .breadthFirst, n => n.breadthFirstOrder

/-! Helper lemmas about the embedding. -/

theorem attach_flatMap {α β : Type} (l : List α) (f : α → List β) :
    (l.attach.flatMap fun c => f c.1) = l.flatMap f := by
  conv_rhs => rw [← List.attach_map_subtype_val l]
  rw [List.flatMap_map]

theorem attach_map {α β : Type} (l : List α) (f : α → β) :
    (l.attach.map fun c => f c.1) = l.map f := by
  conv_rhs => rw [← List.attach_map_subtype_val l]
  rw [List.map_map]
  rfl

/-- Unfolding equation for `TreeNode.nodes` without `attach`. -/
theorem nodes_eq {M : Type} (t : TreeNode M) :
    t.nodes = t :: t.children.flatMap TreeNode.nodes := by
  rw [TreeNode.nodes, attach_flatMap]

/-- Unfolding equation for `depthFirstTraverse` without `attach`. -/
theorem dft_eq {M : Type} (order : String) (t : TreeNode M) :
    depthFirstTraverse order t =
      (if strIncludes order "pre-order" then [t] else []) ++
        t.children.flatMap (depthFirstTraverse order) ++
        (if strIncludes order "in-order" then [t]
         else if strIncludes order "post-order" then [t] else []) := by
  rw [depthFirstTraverse, attach_flatMap]

/-- Unfolding equation for `TreeNode.updateByRef` without `attach`. -/
theorem updateByRef_eq {M : Type} (t : TreeNode M) (r : Nat) (f : TreeNode M → TreeNode M) :
    t.updateByRef r f =
      if t.ref == r then f t
      else .mk t.ref t.model t.index (t.children.map fun c => c.updateByRef r f) := by
  rw [TreeNode.updateByRef, attach_map t.children fun c => c.updateByRef r f]

/-- Unfolding equation for `removeFromTree` without `attach`. -/
theorem removeFromTree_eq {M : Type} (current node : TreeNode M) :
    removeFromTree current node =
      .mk current.ref current.model current.index
        ((removeFirstByRef current.children node).map fun c => removeFromTree c node) := by
  rw [removeFromTree,
    attach_map (removeFirstByRef current.children node) fun c => removeFromTree c node]

/-- Structural induction principle for `TreeNode` along the children
relation. -/
theorem TreeNode.inductionOn {M : Type} {P : TreeNode M → Prop}
    (step : ∀ t : TreeNode M, (∀ c ∈ t.children, P c) → P t) (t : TreeNode M) : P t :=
  step t (fun c hc => TreeNode.inductionOn step c)
termination_by sizeOf t
decreasing_by
  have h1 : sizeOf c < sizeOf t.children := List.sizeOf_lt_of_mem hc
  cases t with
  | mk r m ix cs =>
    simp only [TreeNode.children] at h1
    simp only [TreeNode.mk.sizeOf_spec]
    omega

theorem flatMapCongr {α β : Type} {l : List α} {f g : α → List β}
    (h : ∀ x ∈ l, f x = g x) : l.flatMap f = l.flatMap g := by
  induction l with
  | nil => rfl
  | cons a l ih =>
    simp only [List.flatMap_cons]
    rw [h a (List.mem_cons_self a l), ih (fun x hx => h x (List.mem_cons_of_mem a hx))]

/-- The tail emission of the traversal (the source's if/else-if on
`"in-order"`/`"post-order"`) fires exactly when either test succeeds. -/
theorem tail_emit_eq {α : Type} (b1 b2 : Bool) (x : α) :
    (if b1 then [x] else if b2 then [x] else []) = (if b1 || b2 then [x] else []) := by
  cases b1 <;> cases b2 <;> rfl

/-- The depth-first traversal depends on the order string only through the
pre-order test and the disjunction of the in-order/post-order tests. -/
theorem dft_congr {M : Type} {o1 o2 : String}
    (hpre : strIncludes o1 "pre-order" = strIncludes o2 "pre-order")
    (htail : (strIncludes o1 "in-order" || strIncludes o1 "post-order") =
      (strIncludes o2 "in-order" || strIncludes o2 "post-order"))
    (t : TreeNode M) : depthFirstTraverse o1 t = depthFirstTraverse o2 t := by
  induction t using TreeNode.inductionOn with
  | _ t ih =>
    rw [dft_eq, dft_eq, tail_emit_eq, tail_emit_eq, hpre, htail,
      flatMapCongr (fun c hc => ih c hc)]

/-! Claims C3, C9, C5, C6. -/

/-- C3 counterexample: an input value with a `model` entry but no `children`
entry is rejected by `parse` (in JS, `parseChildren` reaches
`undefined.forEach`, a TypeError), contradicting the claimed totality. -/
theorem C3_counterexample :
    Tree.parse (some (RawData.mk (0 : Nat) none none)) = Except.error () := rfl

/-- C3 (amended): `Tree.parse` succeeds on every input carrying a `model`,
an optional `index`, and a present (possibly empty) `children` list,
returning a root node with that model and index — the failure branch is
unreachable for such input; when the present children list is empty, the
returned root's children list is empty; for input with no `children` entry
the failure branch is reached; absent input yields an empty tree. -/
theorem C3_parse_amended {M : Type} (m : M) (ix : Option Int) (l : List (RawData M)) :
    (∃ cs, Tree.parse (some (RawData.mk m ix (some l))) =
      Except.ok (some (TreeNode.mk 0 m ix cs))) ∧
    Tree.parse (some (RawData.mk m ix (some []))) =
      Except.ok (some (TreeNode.mk 0 m ix [])) ∧
    Tree.parse (some (RawData.mk m ix none)) = Except.error () ∧
    Tree.parse (none : Option (RawData M)) = Except.ok none := by
  refine ⟨⟨(parseForest l 0 1).1, ?_⟩, ?_, rfl, rfl⟩
  · simp [Tree.parse, Tree.parseChildren,
      TreeNode.ref, TreeNode.model, TreeNode.index, TreeNode.children]
  · simp [Tree.parse, Tree.parseChildren, parseForest,
      TreeNode.ref, TreeNode.model, TreeNode.index, TreeNode.children]

/-- C9: removing the root node of a tree (of any shape) empties the tree:
the root becomes absent and `all()` returns absent afterwards. -/
theorem C9_remove_root {M : Type} (t : Tree M) (r : TreeNode M) (h : t.root = some r) :
    (Tree.remove t r).root = none ∧ (Tree.remove t r).all = none := by
  have hr : r.refEq r = true := by simp [TreeNode.refEq]
  constructor
  · simp [Tree.remove, h, hr]
  · simp [Tree.all, Tree.remove, h, hr]

/-- Witness for C9 at a concrete two-node tree. -/
theorem C9_witness :
    ((⟨some (TreeNode.mk 0 () none [TreeNode.mk 1 () none []]),
        defaultTraversalStrategy⟩ : Tree Unit).root =
      some (TreeNode.mk 0 () none [TreeNode.mk 1 () none []])) ∧
    ((Tree.remove (⟨some (TreeNode.mk 0 () none [TreeNode.mk 1 () none []]),
        defaultTraversalStrategy⟩ : Tree Unit)
        (TreeNode.mk 0 () none [TreeNode.mk 1 () none []])).root = none ∧
      (Tree.remove (⟨some (TreeNode.mk 0 () none [TreeNode.mk 1 () none []]),
        defaultTraversalStrategy⟩ : Tree Unit)
        (TreeNode.mk 0 () none [TreeNode.mk 1 () none []])).all = none) :=
  ⟨rfl, C9_remove_root _ _ rfl⟩

/-- C5: `depthFirstSearch` with `"post-order"` and with `"in-order"`
produce identical sequences on every subtree (each node emitted after all of
its children), and both strings are accepted order values. -/
theorem C5_inorder_postorder_collapse {M : Type} (t : TreeNode M) :
    t.depthFirstSearch "post-order" = t.depthFirstSearch "in-order" ∧
    (∀ u : TreeNode M, u.depthFirstSearch "post-order" =
      u.children.flatMap (fun c => c.depthFirstSearch "post-order") ++ [u]) ∧
    "post-order" ∈ validOrders ∧ "in-order" ∈ validOrders := by
  have h1 : ("post-order" == "reverse-pre-order" || "post-order" == "reverse-post-order" ||
      "post-order" == "reverse-in-order") = false := by decide
  have h2 : ("in-order" == "reverse-pre-order" || "in-order" == "reverse-post-order" ||
      "in-order" == "reverse-in-order") = false := by decide
  have hdfs : ∀ v : TreeNode M, v.depthFirstSearch "post-order" =
      depthFirstTraverse "post-order" v := by
    intro v
    simp only [TreeNode.depthFirstSearch, h1, Bool.false_eq_true, if_false]
  refine ⟨?_, ?_, by decide, by decide⟩
  · simp only [TreeNode.depthFirstSearch, h1, h2, Bool.false_eq_true, if_false]
    exact dft_congr (by decide) (by decide) t
  · intro u
    have hpre : strIncludes "post-order" "pre-order" = false := by decide
    have htail : (strIncludes "post-order" "in-order" ||
        strIncludes "post-order" "post-order") = true := by decide
    rw [hdfs u, dft_eq, tail_emit_eq, hpre, htail]
    simp only [Bool.false_eq_true, if_false, if_true, List.nil_append]
    rw [flatMapCongr (fun c _ => (hdfs c).symm)]

/-- C6: each of the three `reverse-*` orders equals the corresponding
forward order's sequence reversed end-to-end, on every subtree. -/
theorem C6_reverse_orders {M : Type} (t : TreeNode M) (base : String)
    (hbase : base ∈ (["pre-order", "post-order", "in-order"] : List String)) :
    t.depthFirstSearch ("reverse-" ++ base) = (t.depthFirstSearch base).reverse := by
  have main : ∀ revo fwdo : String, revo = "reverse-" ++ fwdo →
      (revo == "reverse-pre-order" || revo == "reverse-post-order" ||
        revo == "reverse-in-order") = true →
      (fwdo == "reverse-pre-order" || fwdo == "reverse-post-order" ||
        fwdo == "reverse-in-order") = false →
      strIncludes revo "pre-order" = strIncludes fwdo "pre-order" →
      (strIncludes revo "in-order" || strIncludes revo "post-order") =
        (strIncludes fwdo "in-order" || strIncludes fwdo "post-order") →
      t.depthFirstSearch revo = (t.depthFirstSearch fwdo).reverse := by
    intro revo fwdo heq hrev hfwd hpre htail
    simp only [TreeNode.depthFirstSearch, hrev, hfwd, Bool.false_eq_true, if_false, if_true]
    rw [dft_congr hpre htail t]
  simp only [List.mem_cons, List.not_mem_nil, or_false] at hbase
  rcases hbase with h | h | h
  · subst h; exact main _ _ (by decide) (by decide) (by decide) (by decide) (by decide)
  · subst h; exact main _ _ (by decide) (by decide) (by decide) (by decide) (by decide)
  · subst h; exact main _ _ (by decide) (by decide) (by decide) (by decide) (by decide)

/-- Witness for C6 at `base = "pre-order"` and a concrete two-node tree. -/
theorem C6_witness :
    ("pre-order" ∈ (["pre-order", "post-order", "in-order"] : List String)) ∧
    TreeNode.depthFirstSearch (M := Unit)
        (.mk 0 () none [.mk 1 () none []]) ("reverse-" ++ "pre-order") =
      (TreeNode.depthFirstSearch (.mk 0 () none [.mk 1 () none []]) "pre-order").reverse :=
  ⟨by decide, C6_reverse_orders _ _ (by decide)⟩


/-! Permutation infrastructure and claim C7. -/

theorem flatMapPerm {α β : Type} {l : List α} {f g : α → List β}
    (h : ∀ x ∈ l, (f x).Perm (g x)) : (l.flatMap f).Perm (l.flatMap g) := by
  induction l with
  | nil => simp
  | cons a l ih =>
    simp only [List.flatMap_cons]
    exact (h a (List.mem_cons_self a l)).append
      (ih (fun x hx => h x (List.mem_cons_of_mem a hx)))

/-- A depth-first traversal whose order emits each node exactly once (the
head emission and the tail emission disagree) produces a permutation of the
subtree's nodes. -/
theorem dft_perm_nodes {M : Type} {order : String}
    (hemit : strIncludes order "pre-order" ≠
      (strIncludes order "in-order" || strIncludes order "post-order"))
    (t : TreeNode M) : (depthFirstTraverse order t).Perm t.nodes := by
  induction t using TreeNode.inductionOn with
  | _ t ih =>
    rw [dft_eq, tail_emit_eq, nodes_eq]
    have hperm : (t.children.flatMap (depthFirstTraverse order)).Perm
        (t.children.flatMap TreeNode.nodes) := flatMapPerm ih
    cases hpre : strIncludes order "pre-order" with
    | false =>
      cases htail : (strIncludes order "in-order" || strIncludes order "post-order") with
      | false => rw [hpre, htail] at hemit; exact absurd rfl hemit
      | true =>
        simp only [Bool.false_eq_true, if_false, if_true, List.nil_append]
        exact (List.perm_append_singleton t _).trans (hperm.cons t)
    | true =>
      cases htail : (strIncludes order "in-order" || strIncludes order "post-order") with
      | true => rw [hpre, htail] at hemit; exact absurd rfl hemit
      | false =>
        simp only [Bool.false_eq_true, if_false, if_true, List.append_nil,
          List.singleton_append]
        exact hperm.cons t

theorem forest_nodes_length {M : Type} (l : List (TreeNode M))
    (h : ∀ c ∈ l, c.nodes.length = c.size) :
    (l.flatMap TreeNode.nodes).length = forestSize l := by
  induction l with
  | nil => simp [forestSize]
  | cons x xs ih =>
    simp only [List.flatMap_cons, List.length_append, forestSize]
    rw [h x (List.mem_cons_self x xs), ih (fun c hc => h c (List.mem_cons_of_mem x hc))]

/-- The node enumeration has exactly `size` elements. -/
theorem nodes_length {M : Type} (t : TreeNode M) : t.nodes.length = t.size := by
  induction t using TreeNode.inductionOn with
  | _ t ih =>
    rw [nodes_eq]
    cases t with
    | mk r m ix cs =>
      simp only [TreeNode.children] at ih
      simp only [List.length_cons, TreeNode.size, TreeNode.children]
      rw [forest_nodes_length cs ih]
      omega

/-- The breadth-first queue loop enumerates a permutation of the nodes of
the queued forest. -/
theorem bfsGo_perm {M : Type} (l : List (TreeNode M)) :
    (breadthFirstGo l).Perm (l.flatMap TreeNode.nodes) := by
  induction l using breadthFirstGo.induct with
  | case1 => simp [breadthFirstGo]
  | case2 n queue ih =>
    rw [breadthFirstGo]
    refine List.Perm.trans (ih.cons n) ?_
    rw [List.flatMap_append, List.flatMap_cons, nodes_eq]
    simp only [List.cons_append]
    exact (List.perm_append_comm).cons n

/-- Every accepted depth-first order produces a permutation of the
subtree's nodes. -/
theorem dfs_perm {M : Type} (t : TreeNode M) (order : String)
    (h : order ∈ validOrders) : (t.depthFirstSearch order).Perm t.nodes := by
  simp only [validOrders, List.mem_cons, List.not_mem_nil, or_false] at h
  rcases h with h | h | h | h | h | h
  · subst h
    have hc : (("pre-order" == "reverse-pre-order" || "pre-order" == "reverse-post-order" ||
        "pre-order" == "reverse-in-order") = false) := by decide
    simp only [TreeNode.depthFirstSearch, hc, Bool.false_eq_true, if_false]
    exact dft_perm_nodes (by decide) t
  · subst h
    have hc : (("post-order" == "reverse-pre-order" || "post-order" == "reverse-post-order" ||
        "post-order" == "reverse-in-order") = false) := by decide
    simp only [TreeNode.depthFirstSearch, hc, Bool.false_eq_true, if_false]
    exact dft_perm_nodes (by decide) t
  · subst h
    have hc : (("in-order" == "reverse-pre-order" || "in-order" == "reverse-post-order" ||
        "in-order" == "reverse-in-order") = false) := by decide
    simp only [TreeNode.depthFirstSearch, hc, Bool.false_eq_true, if_false]
    exact dft_perm_nodes (by decide) t
  · subst h
    have hc : (("reverse-pre-order" == "reverse-pre-order" ||
        "reverse-pre-order" == "reverse-post-order" ||
        "reverse-pre-order" == "reverse-in-order") = true) := by decide
    simp only [TreeNode.depthFirstSearch, hc, if_true]
    exact (List.reverse_perm _).trans (dft_perm_nodes (by decide) t)
  · subst h
    have hc : (("reverse-post-order" == "reverse-pre-order" ||
        "reverse-post-order" == "reverse-post-order" ||
        "reverse-post-order" == "reverse-in-order") = true) := by decide
    simp only [TreeNode.depthFirstSearch, hc, if_true]
    exact (List.reverse_perm _).trans (dft_perm_nodes (by decide) t)
  · subst h
    have hc : (("reverse-in-order" == "reverse-pre-order" ||
        "reverse-in-order" == "reverse-post-order" ||
        "reverse-in-order" == "reverse-in-order") = true) := by decide
    simp only [TreeNode.depthFirstSearch, hc, if_true]
    exact (List.reverse_perm _).trans (dft_perm_nodes (by decide) t)

/-- C7: on a non-empty tree, `all()` run with any provided traversal (each
of the six accepted depth-first orders, or breadth-first) returns a
sequence whose underlying set is exactly the set of nodes of the tree and
whose length is the total node count, root included. -/
theorem C7_all_permutation {M : Type} (t : Tree M) (r : TreeNode M) (s : ProvidedStrategy)
    (hroot : t.root = some r) (hstrat : t.strategy = applyStrategy s)
    (hs : s = ProvidedStrategy.breadthFirst ∨
      ∃ o ∈ validOrders, s = ProvidedStrategy.depthFirst o) :
    ∃ out, t.all = some out ∧ (∀ x, x ∈ out ↔ x ∈ r.nodes) ∧ out.length = r.size := by
  refine ⟨applyStrategy s r, ?_, ?_⟩
  · rw [Tree.all, hroot, hstrat]
    rfl
  · have hperm : (applyStrategy s r).Perm r.nodes := by
      rcases hs with h | ⟨o, ho, h⟩
      · subst h
        simp only [applyStrategy, TreeNode.breadthFirstOrder]
        have := bfsGo_perm [r]
        simpa using this
      · subst h
        simpa only [applyStrategy] using dfs_perm r o ho
    exact ⟨fun x => hperm.mem_iff, hperm.length_eq.trans (nodes_length r)⟩

/-- Witness for C7: a concrete one-node tree with the breadth-first
strategy. -/
theorem C7_witness :
    ((⟨some (TreeNode.mk 0 () none []), applyStrategy .breadthFirst⟩ : Tree Unit).root =
      some (TreeNode.mk 0 () none [])) ∧
    ∃ out,
      (⟨some (TreeNode.mk 0 () none []), applyStrategy .breadthFirst⟩ : Tree Unit).all =
        some out ∧
      (∀ x, x ∈ out ↔ x ∈ (TreeNode.mk 0 () none [] : TreeNode Unit).nodes) ∧
      out.length = (TreeNode.mk 0 () none [] : TreeNode Unit).size :=
  ⟨rfl, C7_all_permutation _ _ _ rfl rfl (Or.inl rfl)⟩


/-! Lemmas about `getParent` and `findChild`; claims C2 and C10. -/

theorem refEq_iff {M : Type} (a b : TreeNode M) : a.refEq b = true ↔ a.ref = b.ref := by
  simp [TreeNode.refEq]

theorem self_mem_nodes {M : Type} (t : TreeNode M) : t ∈ t.nodes := by
  rw [nodes_eq]
  exact List.mem_cons_self _ _

theorem forestNodes_cons {M : Type} (n : TreeNode M) (rest : List (TreeNode M)) :
    forestNodes (n :: rest) = n.nodes ++ forestNodes rest := by
  simp [forestNodes]

theorem mem_nodes_of_mem_forest_children {M : Type} {x t : TreeNode M}
    (h : x ∈ forestNodes t.children) : x ∈ t.nodes := by
  rw [nodes_eq]
  refine List.mem_cons_of_mem _ ?_
  simpa [forestNodes] using h

/-- Soundness of the `getParent` search: a returned node belongs to the
searched forest and has a child carrying the searched reference. -/
theorem getParentGo_sound {M : Type} (c : TreeNode M) (l : List (TreeNode M))
    (q : TreeNode M) (h : getParentGo c l = some q) :
    q ∈ forestNodes l ∧ ∃ x ∈ q.children, x.refEq c = true := by
  induction l using getParentGo.induct c with
  | case1 =>
    rw [getParentGo] at h
    cases h
  | case2 node rest hcheck =>
    rw [getParentGo] at h
    simp only [hcheck, if_true] at h
    cases h
    refine ⟨List.mem_append_left _ (self_mem_nodes _), ?_⟩
    simpa using List.any_eq_true.mp hcheck
  | case3 node rest hcheck g hg ihc =>
    rw [getParentGo] at h
    simp only [hcheck, Bool.false_eq_true, if_false, hg] at h
    cases h
    rcases ihc hg with ⟨hmem, hown⟩
    exact ⟨List.mem_append_left _ (mem_nodes_of_mem_forest_children hmem), hown⟩
  | case4 node rest hcheck hnone ihc ihr =>
    rw [getParentGo] at h
    simp only [hcheck, Bool.false_eq_true, if_false, hnone] at h
    rcases ihr h with ⟨hmem, hown⟩
    exact ⟨List.mem_append_right _ hmem, hown⟩

/-- Completeness of the `getParent` search: if some node of the forest has a
child carrying the searched reference, the search succeeds. -/
theorem getParentGo_complete {M : Type} (c : TreeNode M) (l : List (TreeNode M))
    (q : TreeNode M) (hown : ∃ x ∈ q.children, x.refEq c = true)
    (hq : q ∈ forestNodes l) : ∃ q', getParentGo c l = some q' := by
  induction l using getParentGo.induct c with
  | case1 =>
    simp [forestNodes] at hq
  | case2 node rest hcheck =>
    exact ⟨node, by rw [getParentGo]; simp [hcheck]⟩
  | case3 node rest hcheck g hg ihc =>
    refine ⟨g, ?_⟩
    rw [getParentGo]
    simp [hcheck, hg]
  | case4 node rest hcheck hnone ihc ihr =>
    rw [forestNodes_cons] at hq
    rcases List.mem_append.mp hq with hq1 | hq2
    · rw [nodes_eq] at hq1
      rcases List.mem_cons.mp hq1 with rfl | hq1'
      · exfalso
        rcases hown with ⟨x, hx, hxr⟩
        exact hcheck (List.any_eq_true.mpr ⟨x, hx, hxr⟩)
      · exfalso
        have hq1c : q ∈ forestNodes node.children := by simpa [forestNodes] using hq1'
        rcases ihc hq1c with ⟨q', hq'⟩
        rw [hq'] at hnone
        cases hnone
    · rcases ihr hq2 with ⟨q', hq'⟩
      refine ⟨q', ?_⟩
      rw [getParentGo]
      simp [hcheck, hnone, hq']

/-- C2 counterexample: a node `P` whose only child is `C` — by the claim,
`P.getParent(C)` should return `P` (the immediate owner, "including P
itself"), but the code returns absent. -/
theorem C2_counterexample :
    (TreeNode.mk 1 () none [] ∈
      (TreeNode.mk 0 () none [TreeNode.mk 1 () none []] : TreeNode Unit).children) ∧
    TreeNode.getParent (TreeNode.mk 0 () none [TreeNode.mk 1 () none []] : TreeNode Unit)
      (some (TreeNode.mk 1 () none [])) = none := by
  constructor
  · simp [TreeNode.children]
  · simp [TreeNode.getParent, getParentGo, TreeNode.children, TreeNode.refEq, TreeNode.ref]

/-- C2 (amended): `getParent` searches only strict descendants of the
receiver for the immediate owner.  It returns absent on an absent child;
it returns absent when no strict descendant of `P` owns `C` (in particular
when `P` itself is the only owner, and when `C` equals `P`); and when a
strict descendant `Q` is the unique strict-descendant owner of `C`'s
reference, it returns exactly `Q`. -/
theorem C2_getParent_amended {M : Type} (p : TreeNode M) (c : TreeNode M) :
    TreeNode.getParent p none = none ∧
    ((∀ q ∈ forestNodes p.children, ¬ ownsRef q c.ref) →
      TreeNode.getParent p (some c) = none) ∧
    (∀ q, q ∈ forestNodes p.children → ownsRef q c.ref →
      (∀ q' ∈ forestNodes p.children, ownsRef q' c.ref → q' = q) →
      TreeNode.getParent p (some c) = some q) := by
  have hunfold : TreeNode.getParent p (some c) = getParentGo c p.children := rfl
  refine ⟨rfl, ?_, ?_⟩
  · intro hno
    rw [hunfold]
    cases hres : getParentGo c p.children with
    | none => rfl
    | some q =>
      exfalso
      rcases getParentGo_sound c p.children q hres with ⟨hqmem, x, hx, hxr⟩
      exact hno q hqmem ⟨x, hx, (refEq_iff x c).mp hxr⟩
  · intro q hq hown huniq
    have hown' : ∃ x ∈ q.children, x.refEq c = true := by
      rcases hown with ⟨x, hx, hxr⟩
      exact ⟨x, hx, (refEq_iff x c).mpr hxr⟩
    rcases getParentGo_complete c p.children q hown' hq with ⟨q', hq'⟩
    rcases getParentGo_sound c p.children q' hq' with ⟨hmem', x', hx', hxr'⟩
    have heq : q' = q := huniq q' hmem' ⟨x', hx', (refEq_iff x' c).mp hxr'⟩
    rw [hunfold, hq', heq]

/-- Witness for C2 at a concrete three-node chain: the unique strict
descendant owning the child is returned. -/
theorem C2_witness :
    TreeNode.getParent (TreeNode.mk 0 () none
        [TreeNode.mk 1 () none [TreeNode.mk 2 () none []]] : TreeNode Unit)
      (some (TreeNode.mk 2 () none [])) =
      some (TreeNode.mk 1 () none [TreeNode.mk 2 () none []]) := by
  refine (C2_getParent_amended _ _).2.2 _ ?_ ?_ ?_
  · simp [forestNodes, nodes_eq, TreeNode.children]
  · exact ⟨TreeNode.mk 2 () none [], by simp [TreeNode.children], rfl⟩
  · intro q' hmem hq'
    simp only [forestNodes, nodes_eq, TreeNode.children, List.flatMap_cons,
      List.flatMap_nil, List.append_nil, List.mem_cons, List.not_mem_nil, or_false] at hmem
    rcases hmem with h | h
    · exact h
    · exfalso
      rcases hq' with ⟨x, hx, hxr⟩
      rw [h] at hx
      simp [TreeNode.children] at hx

/-- The `findChild` search returns absent when the predicate fails on every
node of the searched forest. -/
theorem findChildGo_eq_none {M : Type} (p : TreeNode M → Bool) (l : List (TreeNode M))
    (h : ∀ x ∈ forestNodes l, p x = false) : findChildGo p l = none := by
  induction l using findChildGo.induct p with
  | case1 => rw [findChildGo]
  | case2 child rest hp =>
    exfalso
    have : p child = false :=
      h child (by rw [forestNodes_cons]; exact List.mem_append_left _ (self_mem_nodes _))
    rw [this] at hp
    cases hp
  | case3 child rest hp g hg ihc =>
    exfalso
    have hnone : findChildGo p child.children = none := by
      refine ihc fun x hx => ?_
      refine h x ?_
      rw [forestNodes_cons]
      exact List.mem_append_left _ (mem_nodes_of_mem_forest_children hx)
    rw [hnone] at hg
    cases hg
  | case4 child rest hp hnone ihc ihr =>
    rw [findChildGo]
    simp only [hp, Bool.false_eq_true, if_false, hnone]
    refine ihr fun x hx => ?_
    refine h x ?_
    rw [forestNodes_cons]
    exact List.mem_append_right _ hx

/-- C10: `Tree.find` searches only strict descendants of the root: for a
predicate satisfied by the root node and by no other node of the tree,
`find` returns absent — the root itself is never returned. -/
theorem C10_find_skips_root {M : Type} (t : Tree M) (r : TreeNode M)
    (p : TreeNode M → Bool) (hroot : t.root = some r) (hp : p r = true)
    (hothers : ∀ x ∈ forestNodes r.children, p x = false) :
    Tree.find t p = none := by
  rw [Tree.find, hroot]
  exact findChildGo_eq_none p r.children hothers

/-- Witness for C10 at a concrete two-node tree with the predicate "has
reference 0", satisfied exactly by the root. -/
theorem C10_witness :
    Tree.find (⟨some (TreeNode.mk 0 () none [TreeNode.mk 1 () none []]),
        defaultTraversalStrategy⟩ : Tree Unit) (fun x => x.ref == 0) = none := by
  refine C10_find_skips_root _ (TreeNode.mk 0 () none [TreeNode.mk 1 () none []])
    _ rfl (by simp [TreeNode.ref]) ?_
  intro x hx
  simp only [forestNodes, nodes_eq, TreeNode.children, List.flatMap_cons,
    List.flatMap_nil, List.append_nil, List.mem_cons, List.not_mem_nil, or_false] at hx
  rw [hx]
  simp [TreeNode.ref]


/-! Lemmas about `insertChild` at both levels; claim C8. -/

theorem findIdx?_cons_eq {α : Type} (p : α → Bool) (a : α) (l : List α) :
    (a :: l).findIdx? p = if p a then some 0 else (l.findIdx? p).map (· + 1) := by
  rw [List.findIdx?_cons, List.findIdx?_succ]

/-- Characterisation of a successful `findIndex`: everything before the
found position fails the predicate and the element at the position (the
head of the remaining suffix) satisfies it. -/
theorem findIdx?_some_split {α : Type} (p : α → Bool) :
    ∀ (l : List α) (i : Nat), l.findIdx? p = some i →
      (∀ x ∈ l.take i, p x = false) ∧ (∀ y ∈ (l.drop i).head?, p y = true) ∧
      l.drop i ≠ [] := by
  intro l
  induction l with
  | nil => intro i h; simp [List.findIdx?_nil] at h
  | cons a l ih =>
    intro i h
    rw [findIdx?_cons_eq] at h
    by_cases hpa : p a = true
    · rw [hpa] at h
      simp only [if_true] at h
      cases h
      refine ⟨by simp, ?_, by simp⟩
      simpa using hpa
    · have hpa' : p a = false := by
        cases hx : p a
        · rfl
        · exact absurd hx hpa
      rw [hpa'] at h
      simp only [Bool.false_eq_true, if_false] at h
      cases hfx : l.findIdx? p with
      | none => rw [hfx] at h; simp at h
      | some j =>
        rw [hfx] at h
        simp only [Option.map_some'] at h
        cases h
        rcases ih j hfx with ⟨h1, h2, h3⟩
        refine ⟨?_, ?_, ?_⟩
        · intro x hx
          rw [List.take_succ_cons] at hx
          rcases List.mem_cons.mp hx with rfl | hx'
          · exact hpa'
          · exact h1 x hx'
        · simpa [List.drop_succ_cons] using h2
        · simpa [List.drop_succ_cons] using h3

/-- Node-level `insertChild` splits the children at the first predicate
match (or at the end) and inserts the child there. -/
theorem insertChild_split {M : Type} (t c : TreeNode M) (p : TreeNode M → Bool) :
    ∃ l₁ l₂, t.children = l₁ ++ l₂ ∧
      (t.insertChild (some c) p).children = l₁ ++ c :: l₂ ∧
      (∀ x ∈ l₁, p x = false) ∧ (∀ y ∈ l₂.head?, p y = true) ∧
      (l₂ = [] → ∀ x ∈ t.children, p x = false) := by
  cases t with
  | mk r m ix cs =>
    simp only [TreeNode.children]
    cases hidx : cs.findIdx? p with
    | some i =>
      rcases findIdx?_some_split p cs i hidx with ⟨h1, h2, h3⟩
      refine ⟨cs.take i, cs.drop i, (List.take_append_drop i cs).symm, ?_,
        h1, h2, fun hnil => absurd hnil h3⟩
      simp only [TreeNode.insertChild, TreeNode.children, hidx]
    | none =>
      have hall : ∀ x ∈ cs, p x = false := by
        intro x hx
        have := List.findIdx?_eq_none_iff.mp hidx x hx
        cases hpx : p x
        · rfl
        · rw [hpx] at this; cases this
      refine ⟨cs, [], by simp, ?_, hall, by simp, fun _ => hall⟩
      simp only [TreeNode.insertChild, TreeNode.children, hidx]

theorem find?_first {α : Type} (p : α → Bool) (l₁ : List α) (n : α) (l₂ : List α)
    (h1 : ∀ x ∈ l₁, p x = false) (hn : p n = true) :
    (l₁ ++ n :: l₂).find? p = some n := by
  induction l₁ with
  | nil => simp [List.find?_cons, hn]
  | cons a l ih =>
    have hpa := h1 a (List.mem_cons_self a l)
    simp only [List.cons_append, List.find?_cons, hpa]
    exact ih (fun x hx => h1 x (List.mem_cons_of_mem a hx))

/-- C8: `Node.insertChild` with a non-absent child grows the children list
by exactly one, inserting the child immediately before the first immediate
child matching the predicate (appending when none matches) and preserving
the relative order of the pre-existing children; `Tree.insertChild` instead
appends the child (via `addChild`) to the children of the first node in the
strategy-flattened order satisfying the predicate, and does nothing when no
node matches. -/
theorem C8_insertChild {M : Type} (t c : TreeNode M) (p : TreeNode M → Bool)
    (tr : Tree M) (r : TreeNode M) (child : TreeNode M) (hroot : tr.root = some r) :
    ((t.insertChild (some c) p).children.length = t.children.length + 1 ∧
      ∃ l₁ l₂, t.children = l₁ ++ l₂ ∧
        (t.insertChild (some c) p).children = l₁ ++ c :: l₂ ∧
        (∀ x ∈ l₁, p x = false) ∧ (∀ y ∈ l₂.head?, p y = true) ∧
        (l₂ = [] → ∀ x ∈ t.children, p x = false)) ∧
    ((∀ x ∈ tr.strategy r, p x = false) → Tree.insertChild tr child p = tr) ∧
    (∀ l₁ n l₂, tr.strategy r = l₁ ++ n :: l₂ → (∀ x ∈ l₁, p x = false) → p n = true →
      (Tree.insertChild tr child p).root =
        some (r.updateByRef n.ref (fun x => x.addChild (some child)))) ∧
    (∀ x : TreeNode M, (x.addChild (some child)).children = x.children ++ [child]) := by
  refine ⟨?_, ?_, ?_, ?_⟩
  · rcases insertChild_split t c p with ⟨l₁, l₂, hsplit, heq, hl₁, hl₂, hnil⟩
    refine ⟨?_, l₁, l₂, hsplit, heq, hl₁, hl₂, hnil⟩
    rw [heq, hsplit]
    simp only [List.length_append, List.length_cons]
    omega
  · intro hno
    have hfind : (tr.strategy r).find? p = none := by
      rw [List.find?_eq_none]
      intro x hx
      rw [hno x hx]
      simp
    simp only [Tree.insertChild, hroot, hfind]
  · intro l₁ n l₂ hflat h1 hn
    have hfind : (tr.strategy r).find? p = some n := by
      rw [hflat]
      exact find?_first p l₁ n l₂ h1 hn
    simp only [Tree.insertChild, hroot, hfind, Option.map_some']
  · intro x
    simp [TreeNode.addChild, TreeNode.children]

/-- Witness for C8: concrete instantiation; the node-level insert grows the
children list by one. -/
theorem C8_witness :
    ((⟨some (TreeNode.mk 0 () none []), defaultTraversalStrategy⟩ : Tree Unit).root =
      some (TreeNode.mk 0 () none [])) ∧
    ((TreeNode.mk 7 () none [TreeNode.mk 1 () none []] : TreeNode Unit).insertChild
        (some (TreeNode.mk 5 () none [])) (fun x => x.ref == 1)).children.length =
      (TreeNode.mk 7 () none [TreeNode.mk 1 () none []] : TreeNode Unit).children.length + 1 :=
  ⟨rfl,
    (C8_insertChild (TreeNode.mk 7 () none [TreeNode.mk 1 () none []])
      (TreeNode.mk 5 () none []) (fun x => x.ref == 1)
      (⟨some (TreeNode.mk 0 () none []), defaultTraversalStrategy⟩ : Tree Unit)
      (TreeNode.mk 0 () none []) (TreeNode.mk 6 () none []) rfl).1.1⟩


/-! Claims C1 and C4. -/

/-- Conditional unfolding of `updateByRef` at a matching reference. -/
theorem updateByRef_hit {M : Type} {t : TreeNode M} {r : Nat}
    (f : TreeNode M → TreeNode M) (h : (t.ref == r) = true) :
    t.updateByRef r f = f t := by
  rw [updateByRef_eq, h]
  rfl

/-- Conditional unfolding of `updateByRef` at a non-matching reference. -/
theorem updateByRef_miss {M : Type} {t : TreeNode M} {r : Nat}
    (f : TreeNode M → TreeNode M) (h : (t.ref == r) = false) :
    t.updateByRef r f =
      .mk t.ref t.model t.index (t.children.map fun c => c.updateByRef r f) := by
  rw [updateByRef_eq, h]
  rfl

/-- C1 (code bug): the body of `Tree.move` computes
`node.getParent(this.root)` — receiver and argument swapped with respect to
its own comment "Remove the node from its current parent" — so on any
acyclic tree the lookup returns absent and the node is never detached.  On
the failing input (tree `root(0) → [p1(1) → [n(2)], p2(3)]`, then
`move(n, p2)`): the tree keeps `n` under its former parent `p1` while also
appending it under `p2`, and `getParent(n)` searched from the tree root
still returns the former parent `p1` (reference 1), not `p2`
(reference 3). -/
theorem C1_move_detach_bug :
    (Tree.move
        (⟨some (TreeNode.mk 0 () none
          [TreeNode.mk 1 () none [TreeNode.mk 2 () none []],
           TreeNode.mk 3 () none []]), defaultTraversalStrategy⟩ : Tree Unit)
        (TreeNode.mk 2 () none []) (TreeNode.mk 3 () none [])).1.root =
      some (TreeNode.mk 0 () none
        [TreeNode.mk 1 () none [TreeNode.mk 2 () none []],
         TreeNode.mk 3 () none [TreeNode.mk 2 () none []]]) ∧
    TreeNode.getParent
        (TreeNode.mk 0 () none
          [TreeNode.mk 1 () none [TreeNode.mk 2 () none []],
           TreeNode.mk 3 () none [TreeNode.mk 2 () none []]] : TreeNode Unit)
        (some (TreeNode.mk 2 () none [])) =
      some (TreeNode.mk 1 () none [TreeNode.mk 2 () none []]) ∧
    TreeNode.mk 2 () none [] ∈
      (TreeNode.mk 1 () none [TreeNode.mk 2 () none []] : TreeNode Unit).children ∧
    (TreeNode.mk 1 () none [TreeNode.mk 2 () none []] : TreeNode Unit).ref ≠
      (TreeNode.mk 3 () none [] : TreeNode Unit).ref := by
  refine ⟨?_, ?_, ?_, ?_⟩
  · simp [Tree.move, TreeNode.getParent, getParentGo, updateByRef_hit,
      updateByRef_miss, TreeNode.refEq, TreeNode.ref, TreeNode.model,
      TreeNode.index, TreeNode.children, TreeNode.addChild, TreeNode.removeChild]
  · simp [TreeNode.getParent, getParentGo, TreeNode.refEq, TreeNode.ref,
      TreeNode.children]
  · simp [TreeNode.children]
  · simp [TreeNode.ref]

/-- C4 counterexample: on an empty tree, `move` still mutates the
`newParent` argument — its children list grows from 0 to 1 — contradicting
the claim that every node passed as an argument is left unchanged. -/
theorem C4_counterexample :
    ((Tree.move (⟨none, defaultTraversalStrategy⟩ : Tree Unit)
        (TreeNode.mk 0 () none []) (TreeNode.mk 1 () none [])).2).children.length = 1 ∧
    (TreeNode.mk 1 () none [] : TreeNode Unit).children.length = 0 := by
  constructor
  · simp [Tree.move, TreeNode.getParent, updateByRef_hit, updateByRef_miss,
      TreeNode.refEq, TreeNode.ref, TreeNode.addChild, TreeNode.children,
      TreeNode.model, TreeNode.index]
  · rfl

/-- C4 (amended): on an empty tree, `all`, `find`, `remove`, `getPath`,
`getReversePath`, `walk` and `insertChild` are no-ops returning an
empty/absent result and leaving the tree unchanged, and `move` leaves the
tree empty; but `move` is not a complete no-op: it still appends `node` to
the `newParent` argument's children. -/
theorem C4_empty_tree_amended {M : Type} (t : Tree M) (h : t.root = none)
    (node newParent c : TreeNode M) (p : TreeNode M → Bool) :
    Tree.all t = none ∧ Tree.find t p = none ∧ Tree.remove t node = t ∧
    Tree.getPath t node = none ∧ Tree.getReversePath t node = none ∧
    Tree.walk t = [] ∧ Tree.insertChild t c p = t ∧
    (Tree.move t node newParent).1 = t ∧
    (Tree.move t node newParent).2 = newParent.addChild (some node) := by
  obtain ⟨troot, tstrat⟩ := t
  obtain rfl : troot = none := h
  refine ⟨rfl, rfl, rfl, rfl, rfl, rfl, rfl, rfl, ?_⟩
  show newParent.updateByRef newParent.ref (fun n => n.addChild (some node)) =
    newParent.addChild (some node)
  rw [updateByRef_eq]
  simp

/-- Witness for C4 at a concrete empty tree. -/
theorem C4_witness :
    ((⟨none, defaultTraversalStrategy⟩ : Tree Unit).root = none) ∧
    Tree.all (⟨none, defaultTraversalStrategy⟩ : Tree Unit) = none ∧
    (Tree.move (⟨none, defaultTraversalStrategy⟩ : Tree Unit)
        (TreeNode.mk 0 () none []) (TreeNode.mk 1 () none [])).2 =
      (TreeNode.mk 1 () none []).addChild (some (TreeNode.mk 0 () none [])) :=
  ⟨rfl,
    (C4_empty_tree_amended (⟨none, defaultTraversalStrategy⟩ : Tree Unit) rfl
      (TreeNode.mk 0 () none []) (TreeNode.mk 1 () none [])
      (TreeNode.mk 2 () none []) (fun _ => true)).1,
    (C4_empty_tree_amended (⟨none, defaultTraversalStrategy⟩ : Tree Unit) rfl
      (TreeNode.mk 0 () none []) (TreeNode.mk 1 () none [])
      (TreeNode.mk 2 () none []) (fun _ => true)).2.2.2.2.2.2.2.2⟩

end TsTree
